import Mathlib

/-!
Verification development for the exam-preparation tracker's statistics
aggregation and time-range reporting engine.

The TypeScript sources are shallowly embedded:

* Calendar dates (ISO `YYYY-MM-DD` strings in the source) are embedded as the
  integer number of days since the epoch; the map between canonical date
  strings and epoch days is a bijection, so string equality of dates becomes
  integer equality.
* Timestamps are milliseconds since the epoch (`Int`).
* The environment's timezone is an explicit parameter `off`, the offset in
  milliseconds such that local wall-clock time = UTC time + `off`
  (e.g. `off = 8 * 3600000` for UTC+8).  `new Date(y, m-1, d)` (local
  parsing) and `new Date('YYYY-MM-DD')` (UTC parsing) are embedded as
  `parseLocalDay` and `parseUtcDay`; `setHours(0,0,0,0)` and
  `setHours(23,59,59,999)` keep the local calendar day, which is floor
  division of `t + off` by the milliseconds of one day.  `Int` division `/`
  in Lean is Euclidean division, which is floor division for the positive
  literal divisor used here, exactly JavaScript's behaviour.
* A JavaScript `object` keyed by target id (`state.logs`, `state.reviews`)
  is embedded as a total function `String → List _`; a missing key reads as
  `[]`, mirroring `prev.logs[id] || []`.
* `log.timestamp || fallback` is embedded by `jsOr`: the fallback fires when
  the field is absent (`none`) or `0` (falsy).
* Floating point appears in the source only in `Math.round((c/t)*100)` and in
  the accuracy comparison of `getWeakestCategory`; both are embedded exactly
  over `ℚ` (round-half-up for non-negative rationals is
  `(200*c + t) / (2*t)` in natural division).
-/

namespace ZenStudy

/-- Milliseconds in one calendar day (no DST in the model). -/
def msPerDay : Int := 86400000

/-- The local calendar day (epoch days) containing epoch instant `t`, in a
timezone `off` milliseconds east of UTC.  JavaScript date fields are computed
from `t + off` by flooring. -/
def localDayOf (off t : Int) : Int := (t + off) / msPerDay

/-- `new Date(y, m - 1, d).getTime()`: local midnight of epoch day `d`. -/
def parseLocalDay (off d : Int) : Int := d * msPerDay - off

/-- `new Date('YYYY-MM-DD').getTime()`: UTC midnight of epoch day `d`. -/
def parseUtcDay (d : Int) : Int := d * msPerDay

/-- `d.setHours(0,0,0,0)` on a Date holding instant `t`: local midnight of
the local day of `t`. -/
def setHoursStart (off t : Int) : Int := localDayOf off t * msPerDay - off

/-- `d.setHours(23,59,59,999)`: local 23:59:59.999 of the local day of `t`. -/
def setHoursEnd (off t : Int) : Int := localDayOf off t * msPerDay - off + (msPerDay - 1)

/-- JavaScript `a || b` for a numeric field that may be absent: the fallback
fires on `undefined` and on the falsy number `0`. -/
def jsOr : Option Int → Int → Int
  | none, fb => fb
  | some t, fb => if t = 0 then fb else t

/-- One category's tally within a session (`QuestionRecord` in `types.ts`). -/
structure QuestionRecord where
  total : Nat
  correct : Nat
  duration : Nat
deriving DecidableEq

/-- The closed set of five subject categories (`CategoryId` in `types.ts`). -/
inductive CategoryId where
  | speech
  | politics
  | common
  | logic
  | data
deriving DecidableEq

/-- The five-category mapping of a session log; every key is always
present, as in the object literal built by the check-in form. -/
structure Categories where
  speech : QuestionRecord
  politics : QuestionRecord
  common : QuestionRecord
  logic : QuestionRecord
  data : QuestionRecord
deriving DecidableEq

/-- Key lookup `log.categories[cat]`. -/
def getCat : CategoryId → Categories → QuestionRecord
  | .speech, c => c.speech
  | .politics, c => c.politics
  | .common, c => c.common
  | .logic, c => c.logic
  | .data, c => c.data

/-- The fixed enumeration order of the five categories: the insertion order
of the object literal, which is what `Object.keys` / `Object.values` /
`Object.entries` iterate in the source. -/
def catList : List CategoryId :=
  [.speech, .politics, .common, .logic, .data]

/-- `Object.values(log.categories)` in insertion order. -/
def objectValues (c : Categories) : List QuestionRecord :=
  catList.map (fun cat => getCat cat c)

/-- A session log (`DailyLog` in `types.ts`); `date` is the epoch-day
embedding of the ISO date string, `timestamp` is `none` when the field is
absent from persisted data. -/
structure DailyLog where
  id : String
  date : Int
  categories : Categories
  timestamp : Option Int
deriving DecidableEq

/-- A review note (`ReviewNote` in `types.ts`); only the fields the engine
reads are kept (`date` is read only for day-grouping, not used by any claim,
so it is dropped). -/
structure ReviewNote where
  id : String
  content : String
  targetId : String
  timestamp : Int
deriving DecidableEq

/-- An exam target (`ExamTarget` in `types.ts`). -/
structure ExamTarget where
  id : String
  name : String
  examDate : Int
  color : String
  createdAt : Int
deriving DecidableEq

/-- The whole persisted application state (`AppState` in `types.ts`).  The
target-id-keyed objects are total functions defaulting to `[]`. -/
structure AppState where
  targets : List ExamTarget
  selectedTargetId : Option String
  logs : String → List DailyLog
  reviews : String → List ReviewNote

/-- `state.selectedTargetId ? (state.logs[state.selectedTargetId] || []) : []`
(`App.tsx`). -/
def currentLogs (s : AppState) : List DailyLog :=
  match s.selectedTargetId with
  | some tid => s.logs tid
  | none => []

/-- `state.selectedTargetId ? (state.reviews?.[state.selectedTargetId] || []) : []`
(`App.tsx`). -/
def currentReviews (s : AppState) : List ReviewNote :=
  match s.selectedTargetId with
  | some tid => s.reviews tid
  | none => []

/-- The canonical accuracy formula that the source inlines everywhere:
`total > 0 ? Math.round((correct / total) * 100) : 0`, with `Math.round`
embedded exactly over rationals (round half up: `⌊100·c/t + 1/2⌋`, which for
naturals is `(200*c + t) / (2*t)` in truncated division). -/
def computeAccuracy (total correct : Nat) : Nat :=
  if total = 0 then 0 else (200 * correct + total) / (2 * total)

/-! ### Range Query Layer

Three in-range decisions appear in the source:
* `aggLogMatch` / `aggRevMatch`: the filter of `filteredData` in the review
  component (`ReviewSection`, src/unnamed/part_003 lines 45–63), which uses
  local parsing (`parseLocal` + `getStartOfDay`/`getEndOfDay`);
* `sizeLogMatch` / `sizeRevMatch`: the filter of `calculateDataSize` in the
  history drawer (src/unnamed/part_001 lines 96–113), which uses UTC parsing
  (`new Date(str)`) followed by `setHours`;
* the keep-filter of `handleDeleteRange` (`App.tsx` lines 126–154), which
  uses the same UTC parsing and keeps `t < startTs || t > endTs`.
-/

/-- The effective instant `filteredData` tests:
`log.timestamp || parseLocal(log.date).getTime()`. -/
def aggEffTs (off : Int) (log : DailyLog) : Int :=
  jsOr log.timestamp (parseLocalDay off log.date)

/-- Lower bound of the aggregation filter:
`getStartOfDay(parseLocal(startDate))`. -/
def aggStart (off s : Int) : Int := setHoursStart off (parseLocalDay off s)

/-- Upper bound of the aggregation filter:
`getEndOfDay(parseLocal(endDate))`. -/
def aggEnd (off e : Int) : Int := setHoursEnd off (parseLocalDay off e)

/-- The log predicate of `filteredData` (src/unnamed/part_003 lines 50–53). -/
def aggLogMatch (off s e : Int) (log : DailyLog) : Bool :=
  decide (aggStart off s ≤ aggEffTs off log ∧ aggEffTs off log ≤ aggEnd off e)

/-- The review predicate of `filteredData` (src/unnamed/part_003 lines 56–60). -/
def aggRevMatch (off s e : Int) (rev : ReviewNote) : Bool :=
  decide (aggStart off s ≤ rev.timestamp ∧ rev.timestamp ≤ aggEnd off e)

/-- The in-range logs of `filteredData` (the Range Query Layer's
`filterByRange` for logs). -/
def filterLogs003 (off s e : Int) (logs : List DailyLog) : List DailyLog :=
  logs.filter (aggLogMatch off s e)

/-- The in-range reviews of `filteredData` (before its descending sort). -/
def filterRevs003 (off s e : Int) (revs : List ReviewNote) : List ReviewNote :=
  revs.filter (aggRevMatch off s e)

/-- Lower bound of `calculateDataSize` and `handleDeleteRange`:
`new Date(startStr).setHours(0,0,0,0)`. -/
def utcRangeStart (off s : Int) : Int := setHoursStart off (parseUtcDay s)

/-- Upper bound of `calculateDataSize` and `handleDeleteRange`:
`new Date(endStr).setHours(23,59,59,999)`. -/
def utcRangeEnd (off e : Int) : Int := setHoursEnd off (parseUtcDay e)

/-- The effective instant `calculateDataSize` and `handleDeleteRange` test:
`l.timestamp || new Date(l.date).getTime()`. -/
def utcEffTs (log : DailyLog) : Int := jsOr log.timestamp (parseUtcDay log.date)

/-- The log predicate of `calculateDataSize` (src/unnamed/part_001
lines 101–104): `t >= start && t <= end`. -/
def sizeLogMatch (off s e : Int) (log : DailyLog) : Bool :=
  decide (utcRangeStart off s ≤ utcEffTs log ∧ utcEffTs log ≤ utcRangeEnd off e)

/-- The review predicate of `calculateDataSize` (src/unnamed/part_001
lines 105–108). -/
def sizeRevMatch (off s e : Int) (rev : ReviewNote) : Bool :=
  decide (utcRangeStart off s ≤ rev.timestamp ∧ rev.timestamp ≤ utcRangeEnd off e)

/-- The keep-predicate of `handleDeleteRange` for logs (`App.tsx`
lines 138–141): `t < startTs || t > endTs`. -/
def delKeepLog (off s e : Int) (log : DailyLog) : Bool :=
  decide (utcEffTs log < utcRangeStart off s ∨ utcRangeEnd off e < utcEffTs log)

/-- The keep-predicate of `handleDeleteRange` for reviews (`App.tsx`
lines 143–146). -/
def delKeepRev (off s e : Int) (rev : ReviewNote) : Bool :=
  decide (rev.timestamp < utcRangeStart off s ∨ utcRangeEnd off e < rev.timestamp)

/-- `handleDeleteRange` (`App.tsx` lines 126–154): with no selected target it
returns without touching the state; otherwise it replaces exactly the
selected target's two partitions by their out-of-range remainders. -/
def handleDeleteRange (off s e : Int) (st : AppState) : AppState :=
  match st.selectedTargetId with
  | none => st
  | some targetId =>
    { st with
      logs := Function.update st.logs targetId ((st.logs targetId).filter (delKeepLog off s e)),
      reviews := Function.update st.reviews targetId
        ((st.reviews targetId).filter (delKeepRev off s e)) }

/-! ### Aggregation Engine (`StatsDashboard.tsx`, `ReviewSection`) -/

/-- Sort key for `(a, b) => b.timestamp - a.timestamp` style comparators;
all claims about ordering assume the timestamp is present, as `types.ts`
requires, so the `none` default is never reached under those hypotheses. -/
def tsKey (log : DailyLog) : Int := log.timestamp.getD 0

/-- Descending-timestamp comparator as a relation. -/
def tsGe (a b : DailyLog) : Prop := tsKey b ≤ tsKey a

/-- Ascending-timestamp comparator as a relation. -/
def tsLe (a b : DailyLog) : Prop := tsKey a ≤ tsKey b

instance : DecidableRel tsGe := fun _ _ => Int.decLe _ _

instance : DecidableRel tsLe := fun _ _ => Int.decLe _ _

instance : IsTotal DailyLog tsGe := ⟨fun a b => (Int.le_total (tsKey a) (tsKey b)).symm⟩

instance : IsTrans DailyLog tsGe := ⟨fun _ _ _ h1 h2 => le_trans h2 h1⟩

instance : IsTotal DailyLog tsLe := ⟨fun a b => Int.le_total (tsKey a) (tsKey b)⟩

instance : IsTrans DailyLog tsLe := ⟨fun _ _ _ h1 h2 => le_trans h1 h2⟩

/-- `[...logs].sort((a, b) => b.timestamp - a.timestamp)`. -/
def sortByTsDesc (logs : List DailyLog) : List DailyLog :=
  List.insertionSort tsGe logs

/-- `logs.sort((a, b) => a.timestamp - b.timestamp)`. -/
def sortByTsAsc (logs : List DailyLog) : List DailyLog :=
  List.insertionSort tsLe logs

/-- The `processedDates` set of `calculateStreak`: a date already seen is
skipped (`continue`), a new one is kept and recorded. -/
def dedupFirstAux (seen : List Int) : List Int → List Int
  | [] => []
  | d :: ds => if d ∈ seen then dedupFirstAux seen ds else d :: dedupFirstAux (d :: seen) ds

/-- Keep only the first occurrence of every date, in order. -/
def dedupFirst (l : List Int) : List Int := dedupFirstAux [] l

/-- The streak-counting loop of `calculateStreak`: starting from the check
date, count while each (deduplicated) date matches, decrementing the check
date by one day per match, and stop at the first mismatch. -/
def walkCount : Int → List Int → Nat
  | _, [] => 0
  | check, d :: ds => if d = check then walkCount (check - 1) ds + 1 else 0

/-- `calculateStreak` (`StatsDashboard.tsx` lines 30–68).  `today` is the
local epoch day of "now" (`new Date()` with hours zeroed); the most recent
log's date anchors the walk, and a gap of more than one day to today yields
zero. -/
def calculateStreak (today : Int) (logs : List DailyLog) : Nat :=
  match sortByTsDesc logs with
  | [] => 0
  | top :: rest =>
    if 1 < today - top.date then 0
    else walkCount top.date (dedupFirst ((top :: rest).map (fun l => l.date)))

/-- `getTotalQuestions` (`StatsDashboard.tsx` lines 131–135): total questions
over every category of every log. -/
def getTotalQuestions (logs : List DailyLog) : Nat :=
  logs.foldr (fun log acc => acc + ((objectValues log.categories).map QuestionRecord.total).sum) 0

/-- Per-category accumulated questions over all logs (the `totals[key].total`
accumulator of `getWeakestCategory`). -/
def accTotal (logs : List DailyLog) (c : CategoryId) : Nat :=
  (logs.map (fun l => (getCat c l.categories).total)).sum

/-- Per-category accumulated correct answers over all logs. -/
def accCorrect (logs : List DailyLog) (c : CategoryId) : Nat :=
  (logs.map (fun l => (getCat c l.categories).correct)).sum

/-- The eligibility test `val.total > 10` of `getWeakestCategory`. -/
def eligible (logs : List DailyLog) (c : CategoryId) : Bool :=
  decide (10 < accTotal logs c)

/-- The exact accuracy `(val.correct / val.total) * 100` compared by
`getWeakestCategory`, as a rational (the comparison is on un-rounded
values). -/
def accQ (logs : List DailyLog) (c : CategoryId) : ℚ :=
  ((accCorrect logs c : ℚ) / (accTotal logs c : ℚ)) * 100

/-- The `minAcc`/`weakestKey` loop of `getWeakestCategory`: fold over the
categories in enumeration order, keeping the first strict improvement below
the running minimum. -/
def weakestFold (elig : CategoryId → Bool) (acc : CategoryId → ℚ) :
    List CategoryId → ℚ × Option CategoryId → ℚ × Option CategoryId
  | [], st => st
  | c :: cs, (minAcc, best) =>
    if elig c ∧ acc c < minAcc then weakestFold elig acc cs (acc c, some c)
    else weakestFold elig acc cs (minAcc, best)

/-- `getWeakestCategory` (`StatsDashboard.tsx` lines 137–164): `null` for an
empty log set; otherwise the fold over the accumulated per-category tallies,
starting from `minAcc = 101` and no candidate.  (The source returns the
category's display metadata; the model returns the category id.) -/
def getWeakestCategory (logs : List DailyLog) : Option CategoryId :=
  if logs = [] then none
  else (weakestFold (eligible logs) (accQ logs) catList (101, none)).2

/-- Totals restricted by the dashboard category selector: `'ALL'` (`none`)
sums the five categories in enumeration order, a specific category reads that
category's record only. -/
def selTotal : Option CategoryId → Categories → Nat
  | none, cats => ((objectValues cats).map QuestionRecord.total).sum
  | some c, cats => (getCat c cats).total

/-- Correct answers restricted by the category selector. -/
def selCorrect : Option CategoryId → Categories → Nat
  | none, cats => ((objectValues cats).map QuestionRecord.correct).sum
  | some c, cats => (getCat c cats).correct

/-- Durations restricted by the category selector. -/
def selDuration : Option CategoryId → Categories → Nat
  | none, cats => ((objectValues cats).map QuestionRecord.duration).sum
  | some c, cats => (getCat c cats).duration

/-- The result record of `viewStats` (src/unnamed/part_003 lines 66–93).
`avgTimePerQuestion` is a formatted floating-point string in the source and
is not modelled; no claim mentions it. -/
structure ViewStats where
  totalQuestions : Nat
  totalCorrect : Nat
  totalDuration : Nat
  accuracy : Nat
  daysActive : Nat
deriving DecidableEq

/-- `viewStats` (src/unnamed/part_003 lines 66–93): totals of the in-range
logs under the category selector, the canonical accuracy of those totals, and
the number of distinct dates among the in-range logs. -/
def viewStats (off : Int) (cat : Option CategoryId) (s e : Int)
    (logs : List DailyLog) : ViewStats :=
  let periodLogs := filterLogs003 off s e logs
  let tq := (periodLogs.map (fun l => selTotal cat l.categories)).sum
  let tc := (periodLogs.map (fun l => selCorrect cat l.categories)).sum
  let td := (periodLogs.map (fun l => selDuration cat l.categories)).sum
  { totalQuestions := tq
    totalCorrect := tc
    totalDuration := td
    accuracy := computeAccuracy tq tc
    daysActive := ((periodLogs.map (fun l => l.date)).dedup).length }

/-! ### Time-Bucketing Engine (`chartData`, src/unnamed/part_003 lines 96–167) -/

/-- One point of the trend chart.  The source labels a bucket with a
formatted time (`HH:mm`, single-day view) or date (`MM-dd`, multi-day view);
the model keys it by the underlying timestamp resp. epoch day, the values the
labels are formatted from. -/
structure ChartPoint where
  key : Int
  accuracy : Nat
deriving DecidableEq

/-- One single-day bucket: one session log, accuracy from that log's
(optionally category-filtered) totals. -/
def mkSession (cat : Option CategoryId) (log : DailyLog) : ChartPoint :=
  { key := tsKey log
    accuracy := computeAccuracy (selTotal cat log.categories) (selCorrect cat log.categories) }

/-- The day accuracy of the multi-day branch: `0` for a day without logs,
otherwise the canonical accuracy of the day's summed (optionally
category-filtered) totals. -/
def dayAccuracy (cat : Option CategoryId) (dayLogs : List DailyLog) : Nat :=
  if dayLogs = [] then 0
  else computeAccuracy ((dayLogs.map (fun l => selTotal cat l.categories)).sum)
    ((dayLogs.map (fun l => selCorrect cat l.categories)).sum)

/-- The calendar days iterated by the multi-day loop
`for (let d = new Date(start); d <= end; d.setDate(d.getDate() + 1))`:
`s, s+1, …, e` (empty when `e < s`). -/
def dayRange (s e : Int) : List Int :=
  (List.range (e - s + 1).toNat).map (fun k : Nat => s + (k : Int))

/-- `chartData` (src/unnamed/part_003 lines 96–167): on a single-day range,
one bucket per in-range log in ascending timestamp order; otherwise one
bucket per calendar day from `s` to `e`, aggregating that day's in-range
logs. -/
def chartData (off : Int) (cat : Option CategoryId) (s e : Int)
    (logs : List DailyLog) : List ChartPoint :=
  if s = e then
    (sortByTsAsc (filterLogs003 off s e logs)).map (mkSession cat)
  else
    (dayRange s e).map (fun d =>
      { key := d
        accuracy := dayAccuracy cat ((filterLogs003 off s e logs).filter (fun l => decide (l.date = d))) })

/-! ### Staged Deletion Protocol (`HistoryDrawer`, src/unnamed/part_001) -/

/-- Natural-number rendering used where the source formats numbers into
strings. -/
def natStr (n : Nat) : String := toString n

/-- JSON text of one `QuestionRecord`, as `JSON.stringify` lays it out. -/
def qrJson (q : QuestionRecord) : String :=
  "\x7b\"total\":" ++ natStr q.total ++ ",\"correct\":" ++ natStr q.correct ++
    ",\"duration\":" ++ natStr q.duration ++ "\x7d"

/-- JSON text of a log's five-category mapping, in insertion order. -/
def catsJson (c : Categories) : String :=
  "\x7b\"speech\":" ++ qrJson c.speech ++ ",\"politics\":" ++ qrJson c.politics ++
    ",\"common\":" ++ qrJson c.common ++ ",\"logic\":" ++ qrJson c.logic ++
    ",\"data\":" ++ qrJson c.data ++ "\x7d"

/-- JSON text of one log.  The model prints the epoch-day `date` and the raw
timestamp; string escaping inside ids is not modelled.  No claim depends on
the byte count, only on when `calculateDataSize` is invoked. -/
def logJson (l : DailyLog) : String :=
  "\x7b\"id\":\"" ++ l.id ++ "\",\"date\":" ++ toString l.date ++
    ",\"categories\":" ++ catsJson l.categories ++
    ",\"timestamp\":" ++ toString (tsKey l) ++ "\x7d"

/-- JSON text of one review note. -/
def revJson (r : ReviewNote) : String :=
  "\x7b\"id\":\"" ++ r.id ++ "\",\"content\":\"" ++ r.content ++
    "\",\"targetId\":\"" ++ r.targetId ++ "\",\"timestamp\":" ++ toString r.timestamp ++ "\x7d"

/-- Comma-joined JSON array text. -/
def jsonArr (xs : List String) : String :=
  "[" ++ String.intercalate "," xs ++ "]"

/-- Length of `JSON.stringify({ logs, reviews })` — the model of
`new Blob([jsonStr]).size` (character count standing in for UTF-8 bytes). -/
def serializedSize (logs : List DailyLog) (revs : List ReviewNote) : Nat :=
  ("\x7b\"logs\":" ++ jsonArr (logs.map logJson) ++ ",\"reviews\":" ++
    jsonArr (revs.map revJson) ++ "\x7d").length

/-- `formatBytes` (src/unnamed/part_001 lines 87–94) with the default two
decimals dropped (the fractional digits of `toFixed` are floating-point
presentation; no claim reads them): pick the 1024-based unit by `Nat.log`,
divide, and append the unit name. -/
def formatBytes (bytes : Nat) : String :=
  if bytes = 0 then "0 Bytes"
  else
    let i := Nat.log 1024 bytes
    natStr (bytes / 1024 ^ i) ++ " " ++ (["Bytes", "KB", "MB", "GB"].getD i "")

/-- `calculateDataSize` (src/unnamed/part_001 lines 96–113): `'0 Bytes'`
when either chosen date is empty, otherwise the formatted serialized size of
the in-range logs and reviews. -/
def calculateDataSize (off : Int) (s e : Option Int)
    (logs : List DailyLog) (revs : List ReviewNote) : String :=
  match s, e with
  | some sd, some ed =>
    formatBytes (serializedSize (logs.filter (sizeLogMatch off sd ed))
      (revs.filter (sizeRevMatch off sd ed)))
  | _, _ => "0 Bytes"

/-- The transient UI state of the staged bulk-deletion flow (`HistoryDrawer`,
src/unnamed/part_001 lines 21–25).  `deleteConfirmStep` is the untyped step
counter: 0 Idle, 1 RangePick, 2 Warn, 3 FinalConfirm.  An unset date input is
`none` (the empty string in the source). -/
structure DrawerState where
  isDeleteMode : Bool
  deleteStart : Option Int
  deleteEnd : Option Int
  deleteConfirmStep : Nat
  estimatedSize : String
deriving DecidableEq

/-- The `onDeleteRange(deleteStart, deleteEnd)` callback wired to
`handleDeleteRange`.  The strings are nonempty on every flow-reachable call;
an empty string would parse to `NaN`, all comparisons with which are false,
so the filters would keep nothing and the selected target's partitions would
be cleared — embedded in the fallback arm. -/
def onDeleteRange (off : Int) (s e : Option Int) (st : AppState) : AppState :=
  match s, e with
  | some sd, some ed => handleDeleteRange off sd ed st
  | _, _ =>
    match st.selectedTargetId with
    | none => st
    | some targetId =>
      { st with
        logs := Function.update st.logs targetId []
        reviews := Function.update st.reviews targetId [] }

/-- `handleDeleteFlow` (src/unnamed/part_001 lines 115–136), coupled to the
application state through `onDeleteRange` and reading the drawer's `logs` and
`reviews` props (the selected target's partitions).  Steps other than 0–3
fall through with no effect, as the source's `if` chain does. -/
def handleDeleteFlow (off : Int) (d : DrawerState) (st : AppState) :
    DrawerState × AppState :=
  if d.deleteConfirmStep = 0 then
    ({ d with deleteConfirmStep := 1 }, st)
  else if d.deleteConfirmStep = 1 then
    match d.deleteStart, d.deleteEnd with
    | some _, some _ => ({ d with deleteConfirmStep := 2 }, st)
    | _, _ => (d, st)
  else if d.deleteConfirmStep = 2 then
    ({ d with
        estimatedSize :=
          calculateDataSize off d.deleteStart d.deleteEnd (currentLogs st) (currentReviews st)
        deleteConfirmStep := 3 }, st)
  else if d.deleteConfirmStep = 3 then
    ({ d with
        deleteConfirmStep := 0
        isDeleteMode := false
        deleteStart := none
        deleteEnd := none
        estimatedSize := "" },
      onDeleteRange off d.deleteStart d.deleteEnd st)
  else (d, st)

/-- The drawer's abort handler (src/unnamed/part_001 line 408):
`setIsDeleteMode(false); setDeleteConfirmStep(0)` — it takes the application
state only to exhibit that it performs no mutation of logs or notes. -/
def abortDeleteFlow (d : DrawerState) (st : AppState) : DrawerState × AppState :=
  ({ d with isDeleteMode := false, deleteConfirmStep := 0 }, st)

/-! ### Persistence (`loadState`, src/types.ts part lines 62–74) -/

/-- A parsed persisted blob: every field individually optional, since
`JSON.parse` imposes no shape.  The keyed collections are finite association
lists, as JSON objects are. -/
structure RawState where
  targets : Option (List ExamTarget)
  selectedTargetId : Option (Option String)
  logs : Option (List (String × List DailyLog))
  reviews : Option (List (String × List ReviewNote))
deriving DecidableEq

/-- `DEFAULT_STATE`: empty targets, no selection, empty mappings. -/
def defaultRawState : RawState :=
  { targets := some []
    selectedTargetId := some none
    logs := some []
    reviews := some [] }

/-- What `loadState` receives from its collaborators: `none` when the store
has no item, `Except.error` when `JSON.parse` throws, `Except.ok` the parsed
blob otherwise. -/
def LoadInput : Type := Option (Except String RawState)

/-- `loadState` (src/types.ts part lines 62–74): missing item or parse
failure falls back to the default state; a parsed blob has `reviews`
initialized to the empty mapping when absent and is otherwise returned
exactly as parsed.  Total — never raises. -/
def loadState (input : LoadInput) : RawState :=
  match input with
  | none => defaultRawState
  | some (.error _) => defaultRawState
  | some (.ok st) =>
    if st.reviews = none then { st with reviews := some [] } else st

/-! ### Specification-side streak definition

`streakSpec` is written from the specification's words ("sort distinct
active days descending; if the most recent active day is more than 1
calendar day before today, streak = 0; otherwise walk consecutive calendar
days backward counting while each day is active, stopping at the first
gap"), to be compared with the source-derived `calculateStreak`. -/

/-- Insert a day into a strictly descending list of distinct days, keeping
it strictly descending and duplicate-free. -/
def insertDayDesc (x : Int) : List Int → List Int
  | [] => [x]
  | y :: ys =>
    if y < x then x :: y :: ys
    else if x = y then y :: ys
    else y :: insertDayDesc x ys

/-- The distinct active days of a log set, sorted descending. -/
def activeDaysDesc (logs : List DailyLog) : List Int :=
  (logs.map (fun l => l.date)).foldr insertDayDesc []

/-- The specification's streak: anchored at the most recent active day,
zero when that day is more than one day before today, otherwise the length
of the maximal consecutive run of active days walking backward. -/
def streakSpec (today : Int) (days : List Int) : Nat :=
  match days with
  | [] => 0
  | m :: rest => if 1 < today - m then 0 else walkCount m (m :: rest)

/-! ### Concrete instances used by boundary witnesses and counterexamples -/

/-- An all-zero question record. -/
def zeroQR : QuestionRecord := { total := 0, correct := 0, duration := 0 }

/-- An all-zero session (the "all-zero inputs" case of the error-handling
design). -/
def zeroCats : Categories :=
  { speech := zeroQR, politics := zeroQR, common := zeroQR, logic := zeroQR, data := zeroQR }

/-- A log on epoch day `d` timestamped at local noon of that day (the shape
the check-in form creates: date string and timestamp of the same local
moment). -/
def logOn (off d : Int) (cats : Categories) : DailyLog :=
  { id := "log", date := d, categories := cats, timestamp := some (parseLocalDay off d + 43200000) }

/-- The all-zero session log. -/
def zeroLog : DailyLog := logOn 0 0 zeroCats

/-- A log timestamped exactly at UTC midnight of epoch day 10: in a
timezone west of UTC this instant is matched by the deletion-side range
`[10, 10]` but not by the aggregation-side range. -/
def cexLog : DailyLog :=
  { id := "cex", date := 10, categories := zeroCats, timestamp := some 864000000 }

/-- Categories whose speech record is 11 total / 20 correct: eligible
(total > 10) but with exact accuracy 2000/11 > 101, so `getWeakestCategory`'s
`minAcc = 101` sentinel never admits it. -/
def catsOverCorrect : Categories := { zeroCats with speech := { total := 11, correct := 20, duration := 0 } }

/-- Categories whose speech record is 11 total / 0 correct: the boundary
eligible category of the claim (`total == 11, correct == 0`). -/
def catsEligible : Categories := { zeroCats with speech := { total := 11, correct := 0, duration := 0 } }

/-- Categories whose speech record is exactly 10 total: never eligible. -/
def catsBoundary10 : Categories := { zeroCats with speech := { total := 10, correct := 2, duration := 0 } }

/-- A log timestamped exactly at local 23:59:59.999 of epoch day 5 in the
UTC timezone: the inclusive upper boundary of the range `[3, 5]`. -/
def c3Log : DailyLog :=
  { id := "w3", date := 5, categories := zeroCats, timestamp := some 518399999 }

/-- A target used by concrete application states. -/
def targetA : ExamTarget := { id := "a", name := "A", examDate := 20000, color := "#000", createdAt := 0 }

/-- A concrete application state with one selected target `"a"` owning one
log and one review, and an unselected target id `"b"` owning one log. -/
def appEx : AppState :=
  { targets := [targetA]
    selectedTargetId := some "a"
    logs := fun tid => if tid = "a" then [logOn 0 10 catsEligible] else
      if tid = "b" then [logOn 0 11 zeroCats] else []
    reviews := fun tid => if tid = "a" then
      [{ id := "r1", content := "note", targetId := "a", timestamp := parseLocalDay 0 10 + 1000 }] else [] }

/-- A drawer state sitting at the Warn step (step 2) with both dates chosen. -/
def drawerEx2 : DrawerState :=
  { isDeleteMode := true, deleteStart := some 10, deleteEnd := some 10,
    deleteConfirmStep := 2, estimatedSize := "" }

/-- A parsed blob that lacks `targets` but has every other field: parse
succeeds, so `loadState` returns it essentially as-is instead of falling
back to the default state. -/
def rawMissingTargets : RawState :=
  { targets := none
    selectedTargetId := some none
    logs := some [("a", [zeroLog])]
    reviews := some [] }

/-- A parsed blob that lacks only `reviews`. -/
def rawMissingReviews : RawState :=
  { targets := some [targetA]
    selectedTargetId := some (some "a")
    logs := some [("a", [zeroLog])]
    reviews := none }

/-! ## Theorems -/

/-! ### Arithmetic of the day/timestamp normalizations -/

theorem localDayOf_parseLocalDay (off d : Int) :
    localDayOf off (parseLocalDay off d) = d := by
  unfold localDayOf parseLocalDay msPerDay
  omega

theorem aggStart_eq (off s : Int) : aggStart off s = parseLocalDay off s := by
  unfold aggStart setHoursStart
  rw [localDayOf_parseLocalDay]
  rfl

theorem aggEnd_eq (off e : Int) :
    aggEnd off e = parseLocalDay off e + (msPerDay - 1) := by
  unfold aggEnd setHoursEnd
  rw [localDayOf_parseLocalDay]
  rfl

theorem utcRangeStart_eq (off s : Int) (h0 : 0 ≤ off) (h1 : off < msPerDay) :
    utcRangeStart off s = parseLocalDay off s := by
  unfold utcRangeStart setHoursStart localDayOf parseUtcDay parseLocalDay
  unfold msPerDay at h1 ⊢
  omega

theorem utcRangeEnd_eq (off e : Int) (h0 : 0 ≤ off) (h1 : off < msPerDay) :
    utcRangeEnd off e = parseLocalDay off e + (msPerDay - 1) := by
  unfold utcRangeEnd setHoursEnd localDayOf parseUtcDay parseLocalDay
  unfold msPerDay at h1 ⊢
  omega

theorem localDayOf_bounds (off t d : Int) (h : localDayOf off t = d) :
    d * msPerDay ≤ t + off ∧ t + off < (d + 1) * msPerDay := by
  unfold localDayOf msPerDay at h
  unfold msPerDay
  omega

/-! ### C3 — inclusive range filter with normalized local-day boundaries -/

/-- C3.  The range filter keeps exactly the items of the input whose
effective timestamp (the `timestamp` field, falling back to local parsing of
the `date` field when the timestamp is absent) lies between local midnight
of the start date and local 23:59:59.999 of the end date, inclusive; a log
timestamped exactly at the end date's 23:59:59.999 is kept, one timestamped
1 ms later (local midnight of the next day) is dropped, and a log with no
timestamp is matched through its date field. -/
theorem filteredData_range_boundaries (off s e : Int) :
    (∀ (logs : List DailyLog) (log : DailyLog),
        log ∈ filterLogs003 off s e logs ↔
          log ∈ logs ∧ parseLocalDay off s ≤ aggEffTs off log ∧
            aggEffTs off log ≤ parseLocalDay off e + (msPerDay - 1)) ∧
    (∀ (logs : List DailyLog) (log : DailyLog) (T : Int), log ∈ logs → s ≤ e →
        T = parseLocalDay off e + (msPerDay - 1) → T ≠ 0 → log.timestamp = some T →
        log ∈ filterLogs003 off s e logs) ∧
    (∀ (logs : List DailyLog) (log : DailyLog) (T : Int),
        T = parseLocalDay off e + msPerDay → T ≠ 0 → log.timestamp = some T →
        log ∉ filterLogs003 off s e logs) ∧
    (∀ (logs : List DailyLog) (log : DailyLog), log ∈ logs → log.timestamp = none →
        s ≤ log.date → log.date ≤ e → log ∈ filterLogs003 off s e logs) := by
  have hmem : ∀ (logs : List DailyLog) (log : DailyLog),
      log ∈ filterLogs003 off s e logs ↔
        log ∈ logs ∧ parseLocalDay off s ≤ aggEffTs off log ∧
          aggEffTs off log ≤ parseLocalDay off e + (msPerDay - 1) := by
    intro logs log
    simp only [filterLogs003, List.mem_filter, aggLogMatch, aggStart_eq, aggEnd_eq,
      decide_eq_true_eq]
  refine ⟨hmem, ?_, ?_, ?_⟩
  · intro logs log T hin hse hT hT0 hts
    have heff : aggEffTs off log = T := by
      simp only [aggEffTs, hts, jsOr, if_neg hT0]
    refine (hmem logs log).2 ⟨hin, ?_, ?_⟩
    · rw [heff, hT]
      unfold parseLocalDay msPerDay
      omega
    · rw [heff, hT]
  · intro logs log T hT hT0 hts hcontra
    have heff : aggEffTs off log = T := by
      simp only [aggEffTs, hts, jsOr, if_neg hT0]
    have h := ((hmem logs log).1 hcontra).2.2
    rw [heff, hT] at h
    unfold parseLocalDay msPerDay at h
    omega
  · intro logs log hin hts h1 h2
    have heff : aggEffTs off log = parseLocalDay off log.date := by
      simp only [aggEffTs, hts, jsOr]
    refine (hmem logs log).2 ⟨hin, ?_, ?_⟩
    · rw [heff]
      unfold parseLocalDay msPerDay
      omega
    · rw [heff]
      unfold parseLocalDay msPerDay
      omega

/-- Witness for C3: the log timestamped at local 23:59:59.999 of day 5 is
kept by the filter over `[3, 5]` in the UTC timezone. -/
theorem filteredData_range_boundaries_witness :
    c3Log ∈ filterLogs003 0 3 5 [c3Log] :=
  (filteredData_range_boundaries 0 3 5).2.1 [c3Log] c3Log 518399999
    (by simp) (by omega) (by decide) (by decide) rfl

/-! ### C2 — agreement of the three in-range decisions -/

/-- Counterexample to C2 as stated.  In the timezone UTC−5
(`off = -18000000`), the log timestamped at UTC midnight of epoch day 10
(a local evening of day 9) is rejected by the aggregation filter for the
range `[10, 10]` but accepted by the deletion size estimator for the same
range, because the aggregation side parses the range dates locally while the
size estimator and deletion executor parse them as UTC before normalizing.
So the three decisions are not identical in every environment. -/
theorem range_decisions_counterexample :
    aggLogMatch (-18000000) 10 10 cexLog = false ∧
    sizeLogMatch (-18000000) 10 10 cexLog = true := by
  constructor <;> decide

/-- C2, amended.  The deletion size estimator and the deletion executor
always take the same decision on every log and note (the executor keeps
exactly what the estimator does not match); and in every timezone at or east
of UTC (offset `0 ≤ off < msPerDay`, which covers the locale the app is
written for) the aggregation filter's decision also coincides with theirs,
for logs and for notes. -/
theorem range_decisions_agree (s e : Int) :
    (∀ (off : Int) (log : DailyLog), delKeepLog off s e log = !sizeLogMatch off s e log) ∧
    (∀ (off : Int) (rev : ReviewNote), delKeepRev off s e rev = !sizeRevMatch off s e rev) ∧
    (∀ off : Int, 0 ≤ off → off < msPerDay →
      (∀ log : DailyLog, aggLogMatch off s e log = sizeLogMatch off s e log) ∧
      (∀ rev : ReviewNote, aggRevMatch off s e rev = sizeRevMatch off s e rev)) := by
  refine ⟨?_, ?_, ?_⟩
  · intro off log
    simp only [delKeepLog, sizeLogMatch, ← decide_not]
    apply decide_eq_decide.mpr
    omega
  · intro off rev
    simp only [delKeepRev, sizeRevMatch, ← decide_not]
    apply decide_eq_decide.mpr
    omega
  · intro off h0 h1
    unfold msPerDay at h1
    constructor
    · intro log
      simp only [aggLogMatch, sizeLogMatch]
      apply decide_eq_decide.mpr
      rw [aggStart_eq, aggEnd_eq]
      cases hts : log.timestamp with
      | none =>
        simp only [aggEffTs, utcEffTs, hts, jsOr]
        unfold utcRangeStart utcRangeEnd setHoursStart setHoursEnd localDayOf
          parseUtcDay parseLocalDay msPerDay
        omega
      | some t =>
        by_cases ht0 : t = 0
        · simp only [aggEffTs, utcEffTs, hts, jsOr, if_pos ht0]
          unfold utcRangeStart utcRangeEnd setHoursStart setHoursEnd localDayOf
            parseUtcDay parseLocalDay msPerDay
          omega
        · simp only [aggEffTs, utcEffTs, hts, jsOr, if_neg ht0]
          unfold utcRangeStart utcRangeEnd setHoursStart setHoursEnd localDayOf
            parseUtcDay parseLocalDay msPerDay
          omega
    · intro rev
      simp only [aggRevMatch, sizeRevMatch]
      apply decide_eq_decide.mpr
      rw [aggStart_eq, aggEnd_eq]
      unfold utcRangeStart utcRangeEnd setHoursStart setHoursEnd localDayOf
        parseUtcDay parseLocalDay msPerDay
      omega

/-- Witness for the amended C2: at offset 0 and range `[3, 5]`, the three
decisions agree on the boundary log and on a concrete note. -/
theorem range_decisions_agree_witness :
    delKeepLog 0 3 5 c3Log = !sizeLogMatch 0 3 5 c3Log ∧
    aggLogMatch 0 3 5 c3Log = sizeLogMatch 0 3 5 c3Log :=
  ⟨(range_decisions_agree 3 5).1 0 c3Log,
    ((range_decisions_agree 3 5).2.2 0 (by omega) (by decide)).1 c3Log⟩

/-! ### C9 — frame properties of range deletion -/

/-- C9.  With no selected target, range deletion leaves the entire state
unchanged (a no-op).  With a selected target it removes exactly the in-range
logs and reviews of that target's partition (the kept elements are exactly
those the in-range decision rejects) and changes nothing else: the targets
list, the selected-target id, and every other target's partitions are
untouched. -/
theorem handleDeleteRange_frame (off s e : Int) (st : AppState) :
    (st.selectedTargetId = none → handleDeleteRange off s e st = st) ∧
    (∀ tid, st.selectedTargetId = some tid →
      (handleDeleteRange off s e st).targets = st.targets ∧
      (handleDeleteRange off s e st).selectedTargetId = st.selectedTargetId ∧
      (handleDeleteRange off s e st).logs tid =
        (st.logs tid).filter (fun log => !sizeLogMatch off s e log) ∧
      (handleDeleteRange off s e st).reviews tid =
        (st.reviews tid).filter (fun rev => !sizeRevMatch off s e rev) ∧
      (∀ tid2, tid2 ≠ tid → (handleDeleteRange off s e st).logs tid2 = st.logs tid2) ∧
      (∀ tid2, tid2 ≠ tid → (handleDeleteRange off s e st).reviews tid2 = st.reviews tid2)) := by
  constructor
  · intro h
    unfold handleDeleteRange
    rw [h]
  · intro tid h
    have hkeepL : ∀ log : DailyLog, delKeepLog off s e log = !sizeLogMatch off s e log :=
      fun log => (range_decisions_agree s e).1 off log
    have hkeepR : ∀ rev : ReviewNote, delKeepRev off s e rev = !sizeRevMatch off s e rev :=
      fun rev => (range_decisions_agree s e).2.1 off rev
    unfold handleDeleteRange
    rw [h]
    refine ⟨rfl, rfl, ?_, ?_, ?_, ?_⟩
    · simp only [Function.update_same]
      exact List.filter_congr fun log _ => hkeepL log
    · simp only [Function.update_same]
      exact List.filter_congr fun rev _ => hkeepR rev
    · intro tid2 hne
      simp only [Function.update_noteq hne]
    · intro tid2 hne
      simp only [Function.update_noteq hne]

/-- Witness for C9: in the concrete state `appEx` (selected target `"a"`),
deleting the range `[10, 10]` empties target `"a"`'s partitions (its log and
note are in range) while target `"b"`'s log survives and the targets list
and selection are unchanged. -/
theorem handleDeleteRange_frame_witness :
    (handleDeleteRange 0 10 10 appEx).logs "a" = [] ∧
    (handleDeleteRange 0 10 10 appEx).reviews "a" = [] ∧
    (handleDeleteRange 0 10 10 appEx).logs "b" = appEx.logs "b" ∧
    (handleDeleteRange 0 10 10 appEx).targets = appEx.targets ∧
    (handleDeleteRange 0 10 10 appEx).selectedTargetId = appEx.selectedTargetId := by
  have h := (handleDeleteRange_frame 0 10 10 appEx).2 "a" rfl
  refine ⟨?_, ?_, ?_, h.1, h.2.1⟩
  · rw [h.2.2.1]
    decide
  · rw [h.2.2.2.1]
    decide
  · exact h.2.2.2.2.1 "b" (by decide)

/-! ### C1 — the staged bulk-deletion state machine -/

/-- C1.  In the staged bulk-deletion flow: no step other than the final
confirmation step 3 mutates the application state; opening the flow moves
Idle to RangePick; advancing from RangePick is rejected outright (whole
state unchanged) unless both dates are chosen, and moves to the Warn step
when they are; the Warn-to-FinalConfirm transition is where the size
estimate is computed from the currently chosen range and captured; executing
from FinalConfirm performs the range deletion and resets the step counter,
both chosen dates and the cached size estimate back to empty/Idle; and the
abort handler never mutates logs or notes. -/
theorem deleteFlow_protocol (off : Int) (d : DrawerState) (st : AppState) :
    (d.deleteConfirmStep ≠ 3 → (handleDeleteFlow off d st).2 = st) ∧
    (d.deleteConfirmStep = 0 →
      (handleDeleteFlow off d st).1 = { d with deleteConfirmStep := 1 }) ∧
    (d.deleteConfirmStep = 1 → (d.deleteStart = none ∨ d.deleteEnd = none) →
      handleDeleteFlow off d st = (d, st)) ∧
    (d.deleteConfirmStep = 1 → d.deleteStart ≠ none → d.deleteEnd ≠ none →
      (handleDeleteFlow off d st).1 = { d with deleteConfirmStep := 2 }) ∧
    (d.deleteConfirmStep = 2 →
      (handleDeleteFlow off d st).1 =
        { d with
            deleteConfirmStep := 3
            estimatedSize :=
              calculateDataSize off d.deleteStart d.deleteEnd (currentLogs st)
                (currentReviews st) }) ∧
    (d.deleteConfirmStep = 3 → ∀ sd ed, d.deleteStart = some sd → d.deleteEnd = some ed →
      handleDeleteFlow off d st =
        ({ d with
            deleteConfirmStep := 0
            isDeleteMode := false
            deleteStart := none
            deleteEnd := none
            estimatedSize := "" },
          handleDeleteRange off sd ed st)) ∧
    (abortDeleteFlow d st).2 = st := by
  refine ⟨?_, ?_, ?_, ?_, ?_, ?_, rfl⟩
  · intro h3
    unfold handleDeleteFlow
    by_cases h0 : d.deleteConfirmStep = 0
    · simp [h0]
    · by_cases h1 : d.deleteConfirmStep = 1
      · rcases d.deleteStart with _ | sd <;> rcases d.deleteEnd with _ | ed <;>
          simp [h0, h1]
      · by_cases h2 : d.deleteConfirmStep = 2
        · simp [h0, h1, h2]
        · simp [h0, h1, h2, h3]
  · intro h
    unfold handleDeleteFlow
    rw [h]
    simp
  · intro h hnone
    unfold handleDeleteFlow
    rw [h]
    rcases hnone with h1 | h1 <;> rw [h1] <;> simp
  · intro h h1 h2
    unfold handleDeleteFlow
    rw [h]
    rcases hs : d.deleteStart with _ | sd
    · exact absurd hs h1
    · rcases he : d.deleteEnd with _ | ed
      · exact absurd he h2
      · simp
  · intro h
    unfold handleDeleteFlow
    rw [h]
    simp
  · intro h sd ed hs he
    unfold handleDeleteFlow
    rw [h, hs, he]
    simp [onDeleteRange]

/-- Witness for C1: from the concrete Warn-step state `drawerEx2` over
`appEx`, advancing leaves the application state untouched and lands on the
FinalConfirm step with both chosen dates still in place. -/
theorem deleteFlow_protocol_witness :
    (handleDeleteFlow 0 drawerEx2 appEx).2 = appEx ∧
    (handleDeleteFlow 0 drawerEx2 appEx).1.deleteConfirmStep = 3 ∧
    (handleDeleteFlow 0 drawerEx2 appEx).1.deleteStart = some 10 := by
  have h := deleteFlow_protocol 0 drawerEx2 appEx
  refine ⟨h.1 (by decide), ?_, ?_⟩
  · rw [h.2.2.2.2.1 rfl]
  · rw [h.2.2.2.2.1 rfl]
    rfl

/-! ### C7 — the canonical accuracy computation -/

/-- Counterexample to C7 as stated.  The claim requires the result to lie in
`0..100` even for records with `correct > total` (which it also requires the
engine to accept); but `round(correct/total * 100)` on such a record exceeds
100: at `total = 1, correct = 2` the computation returns 200. -/
theorem computeAccuracy_counterexample :
    computeAccuracy 1 2 = 200 ∧ ¬ computeAccuracy 1 2 ≤ 100 := by
  constructor <;> decide

/-- C7, amended.  For every non-negative `total` and `correct` — including
`correct > total`, which is accepted and accumulated as given — the accuracy
computation returns `0` when `total = 0` and the half-up rounding of
`correct/total * 100` when `total > 0` (characterized as the floor of
`(200·correct + total) / (2·total)`); the result is a natural number, and it
is at most 100 whenever `correct ≤ total` (with `correct > total` it can
exceed 100).  `viewStats` reports exactly this computation applied to its
summed totals. -/
theorem computeAccuracy_spec (t c : Nat) (off : Int) (cat : Option CategoryId)
    (s e : Int) (logs : List DailyLog) :
    computeAccuracy 0 c = 0 ∧
    (0 < t → 2 * t * computeAccuracy t c ≤ 200 * c + t ∧
      200 * c + t < 2 * t * computeAccuracy t c + 2 * t) ∧
    (c ≤ t → computeAccuracy t c ≤ 100) ∧
    (viewStats off cat s e logs).accuracy =
      computeAccuracy (viewStats off cat s e logs).totalQuestions
        (viewStats off cat s e logs).totalCorrect := by
  refine ⟨rfl, ?_, ?_, rfl⟩
  · intro ht
    have hne : t ≠ 0 := Nat.pos_iff_ne_zero.mp ht
    unfold computeAccuracy
    rw [if_neg hne]
    have hdm := Nat.div_add_mod (200 * c + t) (2 * t)
    have hlt : (200 * c + t) % (2 * t) < 2 * t := Nat.mod_lt _ (by omega)
    omega
  · intro hct
    by_cases ht : t = 0
    · subst ht
      unfold computeAccuracy
      simp
    · unfold computeAccuracy
      rw [if_neg ht]
      have h : (200 * c + t) / (2 * t) < 101 := by
        rw [Nat.div_lt_iff_lt_mul (by omega : 0 < 2 * t)]
        omega
      omega

/-- Witness for the amended C7: at `total = 8, correct = 3` the returned
value is 38 (= round(37.5), half rounded up), within `0..100`, and it obeys
the floor characterization. -/
theorem computeAccuracy_spec_witness :
    computeAccuracy 8 3 = 38 ∧ computeAccuracy 8 3 ≤ 100 ∧
    2 * 8 * computeAccuracy 8 3 ≤ 200 * 3 + 8 :=
  ⟨by decide, (computeAccuracy_spec 8 3 0 none 0 0 []).2.2.1 (by decide),
    ((computeAccuracy_spec 8 3 0 none 0 0 []).2.1 (by decide)).1⟩

/-! ### C8 — well-defined zero results on empty or all-zero input -/

/-- C8.  On the empty log set every aggregate yields its zero/none result:
the streak is 0, the question totals are 0, `viewStats` is all zeros, and
the weakest category is none; the accuracy computation returns 0 whenever
the summed total is 0 (the division is guarded, and every embedded function
is total, so nothing can fail); and an all-zero session likewise contributes
zero totals, no weakest category, and a zero-accuracy bucket. -/
theorem empty_aggregates_safe (off today : Int) (cat : Option CategoryId)
    (s e : Int) (c : Nat) :
    calculateStreak today [] = 0 ∧
    getTotalQuestions [] = 0 ∧
    viewStats off cat s e [] = ⟨0, 0, 0, 0, 0⟩ ∧
    computeAccuracy 0 c = 0 ∧
    getWeakestCategory [] = none ∧
    getTotalQuestions [zeroLog] = 0 ∧
    getWeakestCategory [zeroLog] = none ∧
    dayAccuracy cat [] = 0 ∧
    dayAccuracy cat [zeroLog] = 0 := by
  refine ⟨rfl, rfl, ?_, rfl, by decide, by decide, by decide, rfl, ?_⟩
  · unfold viewStats filterLogs003
    rcases cat <;> rfl
  · unfold dayAccuracy selTotal selCorrect
    rcases cat with _ | cid
    · decide
    · rcases cid <;> decide

/-! ### C10 — load-time behaviour of the persistence layer -/

/-- Counterexample to C10 as stated.  A successfully parsed blob that lacks
the `targets` field (but has `reviews`) is not replaced by the empty default
state: `loadState` returns it unchanged, with `targets` still absent.  The
source validates nothing beyond the `reviews` migration. -/
theorem loadState_counterexample :
    loadState (some (.ok rawMissingTargets)) = rawMissingTargets ∧
    rawMissingTargets ≠ defaultRawState ∧
    (loadState (some (.ok rawMissingTargets))).targets = none := by
  refine ⟨by decide, by decide, by decide⟩

/-- C10, amended.  Loading never raises (the embedding is a total function):
a missing stored item or a parse failure falls back to the empty default
state; a parsed blob lacking the `reviews` field is returned with `reviews`
initialized to the empty mapping and every other field preserved; and a
parsed blob whose `reviews` field is present is returned exactly as parsed —
no other absent or malformed field triggers a fallback. -/
theorem loadState_spec (msg : String) (st : RawState) :
    loadState none = defaultRawState ∧
    loadState (some (.error msg)) = defaultRawState ∧
    (st.reviews = none →
      loadState (some (.ok st)) = { st with reviews := some [] }) ∧
    (st.reviews ≠ none → loadState (some (.ok st)) = st) := by
  refine ⟨rfl, rfl, ?_, ?_⟩
  · intro h
    simp only [loadState, if_pos h]
  · intro h
    simp only [loadState, if_neg h]

/-- Witness for the amended C10: the blob missing only `reviews` loads with
an empty `reviews` mapping and its `targets`, selection and `logs` intact. -/
theorem loadState_spec_witness :
    loadState (some (.ok rawMissingReviews)) = { rawMissingReviews with reviews := some [] } ∧
    (loadState (some (.ok rawMissingReviews))).targets = rawMissingReviews.targets := by
  have h := (loadState_spec "" rawMissingReviews).2.2.1 rfl
  exact ⟨h, by rw [h]⟩

/-! ### C6 — weakest-category detection -/

theorem weakestFold_some_ne_none (elig : CategoryId → Bool) (acc : CategoryId → ℚ) :
    ∀ (cs : List CategoryId) (m : ℚ) (c0 : CategoryId),
      (weakestFold elig acc cs (m, some c0)).2 ≠ none := by
  intro cs
  induction cs with
  | nil => intro m c0; simp [weakestFold]
  | cons hd tl ih =>
    intro m c0
    unfold weakestFold
    by_cases h : elig hd = true ∧ acc hd < m
    · rw [if_pos h]
      exact ih _ _
    · rw [if_neg h]
      exact ih _ _

theorem weakestFold_none_iff (elig : CategoryId → Bool) (acc : CategoryId → ℚ) :
    ∀ (cs : List CategoryId) (m : ℚ),
      (weakestFold elig acc cs (m, none)).2 = none ↔
        ∀ c ∈ cs, elig c = true → m ≤ acc c := by
  intro cs
  induction cs with
  | nil => intro m; simp [weakestFold]
  | cons hd tl ih =>
    intro m
    unfold weakestFold
    by_cases h : elig hd = true ∧ acc hd < m
    · rw [if_pos h]
      constructor
      · intro hres
        exact absurd hres (weakestFold_some_ne_none elig acc tl _ _)
      · intro hall
        exact absurd (hall hd (by simp) h.1) (not_le.mpr h.2)
    · rw [if_neg h]
      rw [ih m]
      constructor
      · intro hall
        intro c hc he
        rcases List.mem_cons.mp hc with rfl | hc2
        · by_contra hlt
          exact h ⟨he, not_le.mp hlt⟩
        · exact hall c hc2 he
      · intro hall c hc he
        exact hall c (List.mem_cons_of_mem hd hc) he

theorem weakestFold_some_char (elig : CategoryId → Bool) (acc : CategoryId → ℚ) :
    ∀ (cs : List CategoryId) (m : ℚ) (b : Option CategoryId) (c : CategoryId),
      (weakestFold elig acc cs (m, b)).2 = some c →
        (b = some c ∧ ∀ c2 ∈ cs, elig c2 = true → m ≤ acc c2) ∨
        (∃ l1 l2, cs = l1 ++ c :: l2 ∧ elig c = true ∧ acc c < m ∧
          (∀ c2 ∈ l1, elig c2 = true → acc c < acc c2) ∧
          (∀ c2 ∈ l2, elig c2 = true → acc c ≤ acc c2)) := by
  intro cs
  induction cs with
  | nil =>
    intro m b c hres
    exact Or.inl ⟨hres, by simp⟩
  | cons hd tl ih =>
    intro m b c hres
    unfold weakestFold at hres
    by_cases h : elig hd = true ∧ acc hd < m
    · rw [if_pos h] at hres
      rcases ih _ _ _ hres with ⟨heq, hall⟩ | ⟨l1, l2, hsplit, he, hlt, hl1, hl2⟩
      · injection heq with heq
        subst heq
        refine Or.inr ⟨[], tl, rfl, h.1, h.2, by simp, ?_⟩
        intro c2 hc2 he2
        exact hall c2 hc2 he2
      · refine Or.inr ⟨hd :: l1, l2, by rw [hsplit, List.cons_append], he, lt_trans hlt h.2, ?_, hl2⟩
        intro c2 hc2 he2
        rcases List.mem_cons.mp hc2 with rfl | hc2'
        · exact hlt
        · exact hl1 c2 hc2' he2
    · rw [if_neg h] at hres
      have hmle : elig hd = true → m ≤ acc hd := by
        intro he
        by_contra hlt
        exact h ⟨he, not_le.mp hlt⟩
      rcases ih _ _ _ hres with ⟨heq, hall⟩ | ⟨l1, l2, hsplit, he, hlt, hl1, hl2⟩
      · refine Or.inl ⟨heq, ?_⟩
        intro c2 hc2 he2
        rcases List.mem_cons.mp hc2 with rfl | hc2'
        · exact hmle he2
        · exact hall c2 hc2' he2
      · refine Or.inr ⟨hd :: l1, l2, by rw [hsplit, List.cons_append], he, hlt, ?_, hl2⟩
        intro c2 hc2 he2
        rcases List.mem_cons.mp hc2 with rfl | hc2'
        · exact lt_of_lt_of_le hlt (hmle he2)
        · exact hl1 c2 hc2' he2

theorem mem_catList (c : CategoryId) : c ∈ catList := by
  cases c <;> decide

/-- Counterexample to C6 as stated.  A single log whose speech record is
11 total / 20 correct (a `correct > total` record, which the engine must
accept) makes speech eligible (`total = 11 > 10`), yet `getWeakestCategory`
returns none: its exact accuracy 2000/11 exceeds the loop's initial
`minAcc = 101` sentinel, so no eligible category is ever selected — the
claim requires the lowest-accuracy eligible category to be returned whenever
one is eligible. -/
theorem getWeakestCategory_counterexample :
    getWeakestCategory [logOn 0 0 catsOverCorrect] = none ∧
    eligible [logOn 0 0 catsOverCorrect] CategoryId.speech = true := by
  have hsp : ¬ accQ [logOn 0 0 catsOverCorrect] CategoryId.speech < 101 := by
    have h1 : accCorrect [logOn 0 0 catsOverCorrect] CategoryId.speech = 20 := by decide
    have h2 : accTotal [logOn 0 0 catsOverCorrect] CategoryId.speech = 11 := by decide
    rw [accQ, h1, h2]
    norm_num
  have hp : eligible [logOn 0 0 catsOverCorrect] CategoryId.politics = false := by decide
  have hc : eligible [logOn 0 0 catsOverCorrect] CategoryId.common = false := by decide
  have hl : eligible [logOn 0 0 catsOverCorrect] CategoryId.logic = false := by decide
  have hd : eligible [logOn 0 0 catsOverCorrect] CategoryId.data = false := by decide
  constructor
  · rw [getWeakestCategory, if_neg (by decide)]
    simp only [catList, weakestFold, hp, hc, hl, hd, hsp, Bool.false_eq_true, false_and,
      and_false, if_false]
  · decide

/-- C6, amended.  `getWeakestCategory` accumulates total/correct per
category over all logs and a category is eligible exactly when its
accumulated total is strictly greater than 10.  It returns none iff the log
set is empty or every eligible category's exact accuracy is at least the
101 sentinel (in particular when no category is eligible; accuracies ≥ 101
require `correct > total`).  When it returns a category, that category is
eligible with accuracy below 101, has minimal accuracy among all eligible
categories, and is the first category in the fixed enumeration order to
beat every eligible category preceding it strictly — so ties go to the
earlier category.  A category with accumulated total ≤ 10 (in particular
exactly 10) is never returned. -/
theorem getWeakestCategory_spec (logs : List DailyLog) :
    (getWeakestCategory logs = none ↔
      logs = [] ∨ ∀ c, eligible logs c = true → 101 ≤ accQ logs c) ∧
    (∀ c, getWeakestCategory logs = some c →
      logs ≠ [] ∧ eligible logs c = true ∧ accQ logs c < 101 ∧
      (∀ c2, eligible logs c2 = true → accQ logs c ≤ accQ logs c2) ∧
      (∃ l1 l2, catList = l1 ++ c :: l2 ∧
        ∀ c2 ∈ l1, eligible logs c2 = true → accQ logs c < accQ logs c2)) ∧
    (∀ c, accTotal logs c ≤ 10 → getWeakestCategory logs ≠ some c) := by
  by_cases hemp : logs = []
  · refine ⟨?_, ?_, ?_⟩
    · simp [getWeakestCategory, hemp]
    · intro c hc
      rw [getWeakestCategory, if_pos hemp] at hc
      exact absurd hc (by simp)
    · intro c _ hc
      rw [getWeakestCategory, if_pos hemp] at hc
      exact absurd hc (by simp)
  · have hsome : ∀ c, getWeakestCategory logs = some c →
        logs ≠ [] ∧ eligible logs c = true ∧ accQ logs c < 101 ∧
        (∀ c2, eligible logs c2 = true → accQ logs c ≤ accQ logs c2) ∧
        (∃ l1 l2, catList = l1 ++ c :: l2 ∧
          ∀ c2 ∈ l1, eligible logs c2 = true → accQ logs c < accQ logs c2) := by
      intro c hc
      rw [getWeakestCategory, if_neg hemp] at hc
      rcases weakestFold_some_char (eligible logs) (accQ logs) catList 101 none c hc with
        ⟨heq, _⟩ | ⟨l1, l2, hsplit, he, hlt, hl1, hl2⟩
      · exact absurd heq (by simp)
      · refine ⟨hemp, he, hlt, ?_, ⟨l1, l2, hsplit, hl1⟩⟩
        intro c2 he2
        have hc2 : c2 ∈ l1 ++ c :: l2 := hsplit ▸ mem_catList c2
        rcases List.mem_append.mp hc2 with hin | hin
        · exact le_of_lt (hl1 c2 hin he2)
        · rcases List.mem_cons.mp hin with rfl | hin'
          · exact le_refl _
          · exact hl2 c2 hin' he2
    refine ⟨?_, hsome, ?_⟩
    · rw [getWeakestCategory, if_neg hemp]
      rw [weakestFold_none_iff (eligible logs) (accQ logs) catList 101]
      constructor
      · intro hall
        exact Or.inr fun c he => hall c (mem_catList c) he
      · intro hall
        rcases hall with hall | hall
        · exact absurd hall hemp
        · exact fun c _ he => hall c he
    · intro c hle hc
      have he := (hsome c hc).2.1
      rw [eligible, decide_eq_true_eq] at he
      omega

/-- Witness for the amended C6: with a single log whose speech record is
11 total / 0 correct, speech is eligible at the claim's `total = 11,
correct = 0` boundary and is returned; and the spec theorem recovers its
eligibility from that result. -/
theorem getWeakestCategory_spec_witness :
    getWeakestCategory [logOn 0 0 catsEligible] = some CategoryId.speech ∧
    eligible [logOn 0 0 catsEligible] CategoryId.speech = true ∧
    getWeakestCategory [logOn 0 0 catsBoundary10] = none := by
  have h1 : getWeakestCategory [logOn 0 0 catsEligible] = some CategoryId.speech := by
    have hsp : accQ [logOn 0 0 catsEligible] CategoryId.speech < 101 := by
      have ha : accCorrect [logOn 0 0 catsEligible] CategoryId.speech = 0 := by decide
      have hb : accTotal [logOn 0 0 catsEligible] CategoryId.speech = 11 := by decide
      rw [accQ, ha, hb]
      norm_num
    have hse : eligible [logOn 0 0 catsEligible] CategoryId.speech = true := by decide
    have hp : eligible [logOn 0 0 catsEligible] CategoryId.politics = false := by decide
    have hc : eligible [logOn 0 0 catsEligible] CategoryId.common = false := by decide
    have hl : eligible [logOn 0 0 catsEligible] CategoryId.logic = false := by decide
    have hd : eligible [logOn 0 0 catsEligible] CategoryId.data = false := by decide
    rw [getWeakestCategory, if_neg (by decide)]
    simp only [catList, weakestFold, hse, hp, hc, hl, hd, hsp, Bool.false_eq_true, false_and,
      and_false, if_false, true_and, if_true, if_pos hsp]
  have h2 : getWeakestCategory [logOn 0 0 catsBoundary10] = none := by
    have hs : eligible [logOn 0 0 catsBoundary10] CategoryId.speech = false := by decide
    have hp : eligible [logOn 0 0 catsBoundary10] CategoryId.politics = false := by decide
    have hc : eligible [logOn 0 0 catsBoundary10] CategoryId.common = false := by decide
    have hl : eligible [logOn 0 0 catsBoundary10] CategoryId.logic = false := by decide
    have hd : eligible [logOn 0 0 catsBoundary10] CategoryId.data = false := by decide
    rw [getWeakestCategory, if_neg (by decide)]
    simp only [catList, weakestFold, hs, hp, hc, hl, hd, Bool.false_eq_true, false_and,
      if_false]
  exact ⟨h1, ((getWeakestCategory_spec [logOn 0 0 catsEligible]).2.1 _ h1).2.1, h2⟩

/-! ### C5 — streak computation -/

theorem mem_dedupFirstAux :
    ∀ (l seen : List Int) (a : Int), a ∈ dedupFirstAux seen l ↔ a ∈ l ∧ a ∉ seen := by
  intro l
  induction l with
  | nil => intro seen a; simp [dedupFirstAux]
  | cons d ds ih =>
    intro seen a
    unfold dedupFirstAux
    by_cases hd : d ∈ seen
    · rw [if_pos hd, ih]
      constructor
      · rintro ⟨h1, h2⟩
        exact ⟨List.mem_cons_of_mem d h1, h2⟩
      · rintro ⟨h1, h2⟩
        rcases List.mem_cons.mp h1 with rfl | h1'
        · exact absurd hd h2
        · exact ⟨h1', h2⟩
    · rw [if_neg hd]
      simp only [List.mem_cons, ih]
      constructor
      · rintro (rfl | ⟨h1, h2⟩)
        · exact ⟨Or.inl rfl, hd⟩
        · exact ⟨Or.inr h1, fun hs => h2 (Or.inr hs)⟩
      · rintro ⟨rfl | h1, h2⟩
        · exact Or.inl rfl
        · by_cases had : a = d
          · exact Or.inl had
          · exact Or.inr ⟨h1, fun hs => hs.elim had h2⟩

theorem mem_dedupFirst (l : List Int) (a : Int) : a ∈ dedupFirst l ↔ a ∈ l := by
  rw [dedupFirst, mem_dedupFirstAux]
  simp

theorem pairwise_dedupFirstAux :
    ∀ (l seen : List Int), List.Pairwise (fun a b => b ≤ a) l →
      List.Pairwise (fun a b => b < a) (dedupFirstAux seen l) := by
  intro l
  induction l with
  | nil => intro seen _; simp [dedupFirstAux]
  | cons d ds ih =>
    intro seen h
    rw [List.pairwise_cons] at h
    unfold dedupFirstAux
    by_cases hd : d ∈ seen
    · rw [if_pos hd]
      exact ih seen h.2
    · rw [if_neg hd]
      rw [List.pairwise_cons]
      refine ⟨?_, ih (d :: seen) h.2⟩
      intro b hb
      have hmem := (mem_dedupFirstAux ds (d :: seen) b).mp hb
      have hle : b ≤ d := h.1 b hmem.1
      have hne : b ≠ d := fun he => hmem.2 (he ▸ List.mem_cons_self d seen)
      exact lt_of_le_of_ne hle hne

theorem mem_insertDayDesc :
    ∀ (l : List Int) (x a : Int), a ∈ insertDayDesc x l ↔ a = x ∨ a ∈ l := by
  intro l
  induction l with
  | nil => intro x a; simp [insertDayDesc]
  | cons y ys ih =>
    intro x a
    unfold insertDayDesc
    by_cases h1 : y < x
    · rw [if_pos h1]
      simp
    · rw [if_neg h1]
      by_cases h2 : x = y
      · rw [if_pos h2]
        subst h2
        simp only [List.mem_cons]
        tauto
      · rw [if_neg h2]
        simp only [List.mem_cons, ih]
        tauto

theorem pairwise_insertDayDesc :
    ∀ (l : List Int) (x : Int), List.Pairwise (fun a b => b < a) l →
      List.Pairwise (fun a b => b < a) (insertDayDesc x l) := by
  intro l
  induction l with
  | nil => intro x _; simp [insertDayDesc]
  | cons y ys ih =>
    intro x h
    rw [List.pairwise_cons] at h
    unfold insertDayDesc
    by_cases h1 : y < x
    · rw [if_pos h1]
      rw [List.pairwise_cons]
      constructor
      · intro b hb
        rcases List.mem_cons.mp hb with rfl | hb'
        · exact h1
        · exact lt_trans (h.1 b hb') h1
      · rw [List.pairwise_cons]
        exact h
    · rw [if_neg h1]
      by_cases h2 : x = y
      · rw [if_pos h2]
        rw [List.pairwise_cons]
        exact h
      · rw [if_neg h2]
        rw [List.pairwise_cons]
        constructor
        · intro b hb
          rcases (mem_insertDayDesc ys x b).mp hb with rfl | hb'
          · exact lt_of_le_of_ne (not_lt.mp h1) h2
          · exact h.1 b hb'
        · exact ih x h.2

theorem mem_activeDaysDesc (logs : List DailyLog) (a : Int) :
    a ∈ activeDaysDesc logs ↔ ∃ log ∈ logs, log.date = a := by
  unfold activeDaysDesc
  induction logs with
  | nil => simp
  | cons l ls ih =>
    simp only [List.map_cons, List.foldr_cons, mem_insertDayDesc, ih]
    constructor
    · rintro (rfl | ⟨log, hlog, rfl⟩)
      · exact ⟨l, List.mem_cons_self l ls, rfl⟩
      · exact ⟨log, List.mem_cons_of_mem l hlog, rfl⟩
    · rintro ⟨log, hlog, rfl⟩
      rcases List.mem_cons.mp hlog with rfl | hlog'
      · exact Or.inl rfl
      · exact Or.inr ⟨log, hlog', rfl⟩

theorem pairwise_activeDaysDesc (logs : List DailyLog) :
    List.Pairwise (fun a b => b < a) (activeDaysDesc logs) := by
  unfold activeDaysDesc
  induction logs with
  | nil => simp
  | cons l ls ih =>
    exact pairwise_insertDayDesc _ _ ih

/-- Two strictly descending integer lists with the same members are equal. -/
theorem sorted_desc_eq_of_mem_iff :
    ∀ (l1 l2 : List Int), List.Pairwise (fun a b => b < a) l1 →
      List.Pairwise (fun a b => b < a) l2 → (∀ a, a ∈ l1 ↔ a ∈ l2) → l1 = l2 := by
  intro l1
  induction l1 with
  | nil =>
    intro l2 _ _ hmem
    rcases l2 with _ | ⟨y, ys⟩
    · rfl
    · exact absurd ((hmem y).mpr (List.mem_cons_self y ys)) (List.not_mem_nil y)
  | cons x xs ih =>
    intro l2 h1 h2 hmem
    rcases l2 with _ | ⟨y, ys⟩
    · exact absurd ((hmem x).mp (List.mem_cons_self x xs)) (List.not_mem_nil x)
    · rw [List.pairwise_cons] at h1 h2
      have hxy : x = y := by
        rcases List.mem_cons.mp ((hmem x).mp (List.mem_cons_self x xs)) with he | hx
        · exact he
        · rcases List.mem_cons.mp ((hmem y).mpr (List.mem_cons_self y ys)) with he | hy
          · exact he.symm
          · exact absurd (lt_trans (h1.1 y hy) (h2.1 x hx)) (lt_irrefl y)
      subst hxy
      have htails : ∀ a, a ∈ xs ↔ a ∈ ys := by
        intro a
        constructor
        · intro ha
          have hax : a < x := h1.1 a ha
          rcases List.mem_cons.mp ((hmem a).mp (List.mem_cons_of_mem x ha)) with rfl | hy
          · exact absurd hax (lt_irrefl a)
          · exact hy
        · intro ha
          have hax : a < x := h2.1 a ha
          rcases List.mem_cons.mp ((hmem a).mpr (List.mem_cons_of_mem x ha)) with rfl | hy
          · exact absurd hax (lt_irrefl a)
          · exact hy
      rw [ih ys h1.2 h2.2 htails]

/-- Under the data-model invariant that a log's date string denotes the
local calendar day of its timestamp, the dates of a descending-timestamp
sort are non-increasing. -/
theorem dates_antitone_of_sorted (off : Int) (logs : List DailyLog)
    (hcons : ∀ log ∈ logs, ∃ t, log.timestamp = some t ∧ log.date = localDayOf off t) :
    List.Pairwise (fun a b => b ≤ a) ((sortByTsDesc logs).map (fun l => l.date)) := by
  have hsorted : List.Pairwise tsGe (sortByTsDesc logs) :=
    List.sorted_insertionSort tsGe logs
  have hperm : (sortByTsDesc logs).Perm logs := List.perm_insertionSort tsGe logs
  rw [List.pairwise_map]
  refine hsorted.imp_of_mem ?_
  intro a b ha hb hr
  obtain ⟨ta, hta, hda⟩ := hcons a (hperm.mem_iff.mp ha)
  obtain ⟨tb, htb, hdb⟩ := hcons b (hperm.mem_iff.mp hb)
  rw [hda, hdb]
  have hkey : tsKey b ≤ tsKey a := hr
  rw [tsKey, tsKey, hta, htb] at hkey
  simp only [Option.getD_some] at hkey
  unfold localDayOf
  exact Int.ediv_le_ediv (by norm_num [msPerDay]) (by omega)

/-- C5.  For every log set satisfying the data-model invariant (each log
carries a timestamp whose local calendar day is the log's date — exactly how
check-ins are created), the source streak equals the specification streak
computed from the distinct active days sorted descending: 0 when there are
no active days or the most recent one is more than one day before today,
otherwise the length of the maximal consecutive run of active days walking
backward from the most recent one, counting each calendar day once. -/
theorem calculateStreak_spec (off today : Int) (logs : List DailyLog)
    (hcons : ∀ log ∈ logs, ∃ t, log.timestamp = some t ∧ log.date = localDayOf off t) :
    calculateStreak today logs = streakSpec today (activeDaysDesc logs) := by
  rcases hs : sortByTsDesc logs with _ | ⟨top, rest⟩
  · have hperm : (sortByTsDesc logs).Perm logs := List.perm_insertionSort tsGe logs
    rw [hs] at hperm
    have hnil : logs = [] := (hperm.symm).eq_nil
    subst hnil
    rw [calculateStreak, hs]
    rfl
  · have hdd : dedupFirst ((top :: rest).map (fun l => l.date)) = activeDaysDesc logs := by
      refine sorted_desc_eq_of_mem_iff _ _ ?_ ?_ ?_
      · rw [dedupFirst]
        refine pairwise_dedupFirstAux _ _ ?_
        have := dates_antitone_of_sorted off logs hcons
        rw [hs] at this
        exact this
      · exact pairwise_activeDaysDesc logs
      · intro a
        rw [mem_dedupFirst, mem_activeDaysDesc]
        have hperm : (sortByTsDesc logs).Perm logs := List.perm_insertionSort tsGe logs
        rw [hs] at hperm
        constructor
        · intro ha
          obtain ⟨log, hlog, hd⟩ := List.mem_map.mp ha
          exact ⟨log, hperm.mem_iff.mp hlog, hd⟩
        · rintro ⟨log, hlog, rfl⟩
          exact List.mem_map.mpr ⟨log, hperm.mem_iff.mpr hlog, rfl⟩
    have hhead : dedupFirst ((top :: rest).map (fun l => l.date)) =
        top.date :: dedupFirstAux [top.date] (rest.map (fun l => l.date)) := by
      rw [dedupFirst, List.map_cons, dedupFirstAux, if_neg (List.not_mem_nil top.date)]
    rw [calculateStreak, hs, ← hdd, hhead]
    rfl

/-- Witness for C5, covering the claim's four scenarios at `today = 10` in
the UTC timezone: logs on today and yesterday give streak 2 (via the spec
theorem), logs on today and three days ago give 1, no logs give 0, and a
log only two days ago gives 0. -/
theorem calculateStreak_spec_witness :
    calculateStreak 10 [logOn 0 10 zeroCats, logOn 0 9 zeroCats] = 2 ∧
    calculateStreak 10 [logOn 0 10 zeroCats, logOn 0 7 zeroCats] = 1 ∧
    calculateStreak 10 ([] : List DailyLog) = 0 ∧
    calculateStreak 10 [logOn 0 8 zeroCats] = 0 := by
  refine ⟨?_, by decide, by decide, by decide⟩
  have hcons : ∀ log ∈ [logOn 0 10 zeroCats, logOn 0 9 zeroCats],
      ∃ t, log.timestamp = some t ∧ log.date = localDayOf 0 t := by
    intro log hlog
    rcases List.mem_cons.mp hlog with rfl | hlog2
    · exact ⟨parseLocalDay 0 10 + 43200000, rfl, by decide⟩
    · rcases List.mem_cons.mp hlog2 with rfl | hlog3
      · exact ⟨parseLocalDay 0 9 + 43200000, rfl, by decide⟩
      · exact absurd hlog3 (List.not_mem_nil log)
  rw [calculateStreak_spec 0 10 _ hcons]
  decide

/-! ### C4 — single-day vs multi-day chart bucketing -/

/-- Under the data-model invariant, a log whose date lies inside `[s, e]` is
matched by the aggregation range filter. -/
theorem aggLogMatch_of_day (off s e : Int) (log : DailyLog) (t : Int)
    (hts : log.timestamp = some t) (hd : log.date = localDayOf off t)
    (hsd : s ≤ log.date) (hde : log.date ≤ e) :
    aggLogMatch off s e log = true := by
  rw [aggLogMatch, decide_eq_true_eq, aggStart_eq, aggEnd_eq]
  by_cases ht0 : t = 0
  · have heff : aggEffTs off log = parseLocalDay off log.date := by
      simp only [aggEffTs, hts, jsOr, if_pos ht0]
    rw [heff]
    unfold parseLocalDay msPerDay
    omega
  · have heff : aggEffTs off log = t := by
      simp only [aggEffTs, hts, jsOr, if_neg ht0]
    rw [heff]
    have hb := localDayOf_bounds off t log.date hd.symm
    unfold parseLocalDay msPerDay at *
    omega

/-- Under the data-model invariant, restricting the in-range logs to one
calendar day `d` of the range recovers exactly all of that day's logs. -/
theorem dayLogs_filter (off s e d : Int) (logs : List DailyLog)
    (hcons : ∀ log ∈ logs, ∃ t, log.timestamp = some t ∧ log.date = localDayOf off t)
    (hsd : s ≤ d) (hde : d ≤ e) :
    (filterLogs003 off s e logs).filter (fun l => decide (l.date = d)) =
      logs.filter (fun l => decide (l.date = d)) := by
  rw [filterLogs003, List.filter_filter]
  refine List.filter_congr ?_
  intro log hlog
  by_cases hday : log.date = d
  · obtain ⟨t, hts, hdt⟩ := hcons log hlog
    rw [aggLogMatch_of_day off s e log t hts hdt (hday ▸ hsd) (hday ▸ hde)]
    simp
  · simp [hday]

/-- The multi-day loop's day list, indexed. -/
theorem dayRange_getElem (s e d : Int) (hsd : s ≤ d) (hde : d ≤ e) :
    (dayRange s e)[(d - s).toNat]? = some d := by
  rw [dayRange, List.getElem?_map, List.getElem?_range (by omega), Option.map_some']
  rw [Int.toNat_of_nonneg (by omega)]
  congr 1
  omega

/-- C4.  Under the data-model invariant on logs: when `start = end`, the
chart is exactly one bucket per in-range log of that day, arranged in
ascending-timestamp order, each bucket's accuracy computed from that single
log's (optionally category-filtered) totals; when `start ≠ end` (taking
`start ≤ end`), the chart has exactly one bucket per calendar day from start
to end inclusive, in chronological order by construction of the index, where
day `d`'s bucket aggregates all of day `d`'s logs — a day with no logs
yields accuracy 0 (`dayAccuracy` of `[]`), any other day the canonical
accuracy of the day's summed (optionally category-filtered) totals. -/
theorem chartData_buckets (off : Int) (cat : Option CategoryId) (s e : Int)
    (logs : List DailyLog)
    (hcons : ∀ log ∈ logs, ∃ t, log.timestamp = some t ∧ log.date = localDayOf off t) :
    (s = e →
      ∃ l, l.Perm (filterLogs003 off s e logs) ∧ List.Sorted tsLe l ∧
        chartData off cat s e logs = l.map (mkSession cat)) ∧
    (s ≠ e → s ≤ e →
      (chartData off cat s e logs).length = (e - s + 1).toNat ∧
      ∀ d : Int, s ≤ d → d ≤ e →
        (chartData off cat s e logs)[(d - s).toNat]? =
          some { key := d
                 accuracy := dayAccuracy cat (logs.filter (fun l => decide (l.date = d))) }) := by
  constructor
  · intro hse
    refine ⟨sortByTsAsc (filterLogs003 off s e logs), List.perm_insertionSort _ _,
      List.sorted_insertionSort _ _, ?_⟩
    rw [chartData, if_pos hse]
  · intro hne hle
    constructor
    · rw [chartData, if_neg hne, List.length_map, dayRange, List.length_map,
        List.length_range]
    · intro d hsd hde
      rw [chartData, if_neg hne, List.getElem?_map, dayRange_getElem s e d hsd hde,
        Option.map_some', dayLogs_filter off s e d logs hcons hsd hde]

/-- Witness for C4 over a concrete three-day range `[10, 12]` with logs on
days 10 and 12 only: three buckets, with the middle (empty) day reporting
accuracy 0, and the single-day case on day 10 producing one bucket per log
in ascending order. -/
theorem chartData_buckets_witness :
    (chartData 0 none 10 12 [logOn 0 10 catsEligible, logOn 0 12 catsEligible]).length = 3 ∧
    (chartData 0 none 10 12 [logOn 0 10 catsEligible, logOn 0 12 catsEligible])[(1:Nat)]? =
      some { key := 11, accuracy := 0 } ∧
    chartData 0 none 10 10 [logOn 0 10 catsEligible] =
      [mkSession none (logOn 0 10 catsEligible)] := by
  have hcons : ∀ log ∈ [logOn 0 10 catsEligible, logOn 0 12 catsEligible],
      ∃ t, log.timestamp = some t ∧ log.date = localDayOf 0 t := by
    intro log hlog
    rcases List.mem_cons.mp hlog with rfl | hlog2
    · exact ⟨parseLocalDay 0 10 + 43200000, rfl, by decide⟩
    · rcases List.mem_cons.mp hlog2 with rfl | hlog3
      · exact ⟨parseLocalDay 0 12 + 43200000, rfl, by decide⟩
      · exact absurd hlog3 (List.not_mem_nil log)
  have h := (chartData_buckets 0 none 10 12 [logOn 0 10 catsEligible, logOn 0 12 catsEligible]
    hcons).2 (by decide) (by decide)
  refine ⟨by rw [h.1]; decide, ?_, by decide⟩
  have h11 := h.2 11 (by decide) (by decide)
  have : ((11 : Int) - 10).toNat = (1 : Nat) := by decide
  rw [this] at h11
  rw [h11]
  decide

end ZenStudy
